import Mathlib

/-!
# Verification of the groit-ai TTS orchestrator

Shallow embedding of the text-to-speech orchestration core of the
repository (`core/services/gemini_tts.py`, `core/services/gemini_client.py`,
`core/api.py`) together with proofs of the specified properties.

Modelling conventions:
* Python strings are modelled as `List Char` (`Str`), so that the
  whitespace-splitting, joining and substring operations of the source can
  be ported structurally.  String literals from the source are written with
  `strL "..."`.
* Byte strings (`bytes`) are modelled as `List Nat`, one entry per byte.
* base64 encoding/decoding is a bijection between byte strings and their
  transport representation; the model elides it and works directly with the
  decoded byte strings (the source only ever decodes, inspects, and
  re-encodes).
* Python whitespace and digit classes are modelled on their ASCII subsets,
  which is exact for the MIME strings and narration text the claims range
  over.
* External effects (the HTTP provider, the clock used for backoff sleeps)
  are modelled as oracles passed in as functions; retries and chunk loops
  are ported as recursive functions over those oracles.
-/

namespace GroitTTS

/-- Decidable equality for `Except`, used to evaluate the model on
concrete inputs. -/
instance exceptDecEq {ε α : Type} [DecidableEq ε] [DecidableEq α] :
    DecidableEq (Except ε α) := fun x y =>
  match x, y with
  | .ok a, .ok b =>
    if h : a = b then isTrue (by rw [h])
    else isFalse (fun hc => h (by injection hc))
  | .error a, .error b =>
    if h : a = b then isTrue (by rw [h])
    else isFalse (fun hc => h (by injection hc))
  | .ok _, .error _ => isFalse (fun hc => Except.noConfusion hc)
  | .error _, .ok _ => isFalse (fun hc => Except.noConfusion hc)

/-- Python strings as character lists. -/
abbrev Str := List Char

/-- Embed a Lean string literal as a `Str`. -/
def strL (s : String) : Str := s.toList

/-- ASCII part of Python's `str.split()` / `\s` whitespace class. -/
def isWS (c : Char) : Bool :=
  c = ' ' || c = '\t' || c = '\n' || c = '\r' || c = '\x0b' || c = '\x0c'

/-- Accumulator-based worker for Python `str.split()` (split on whitespace
runs, dropping empty fields).  `cur` holds the current word reversed. -/
def pySplitAux (cur : Str) : Str → List Str
  | [] => if cur = [] then [] else [cur.reverse]
  | c :: cs =>
    if isWS c then
      if cur = [] then pySplitAux [] cs else cur.reverse :: pySplitAux [] cs
    else
      pySplitAux (c :: cur) cs

/-- Python `s.split()` with no separator argument. -/
def pySplit (s : Str) : List Str := pySplitAux [] s

/-- Python `" ".join(ws)`. -/
def joinSp : List Str → Str
  | [] => []
  | [w] => w
  | w :: ws => w ++ ' ' :: joinSp ws

/-- Python `s.strip()`: drop leading and trailing whitespace. -/
def pyStrip (s : Str) : Str :=
  ((s.dropWhile isWS).reverse.dropWhile isWS).reverse

/-- Python `s.lower()` (ASCII). -/
def pyLower (s : Str) : Str := s.map Char.toLower

/-- Python's substring test `needle in hay`. -/
def strContains (needle : Str) : Str → Bool
  | [] => needle.isPrefixOf []
  | c :: rest => needle.isPrefixOf (c :: rest) || strContains needle rest

/-- `len(chunk.split())` as used throughout the synthesis loop. -/
def wordCount (s : Str) : Nat := (pySplit s).length

/-- Worker for `chunkWindows` with an explicit iteration bound: each
iteration of the source's `while start < total` loop consumes at least one
word when `1 ≤ maxw`, so `ws.length` iterations always suffice. -/
def chunkWindowsF (maxw : Nat) : Nat → List Str → List (List Str)
  | _, [] => []
  | 0, _ :: _ => []
  | fuel + 1, w :: ws =>
    (w :: ws).take maxw :: chunkWindowsF maxw fuel ((w :: ws).drop maxw)

/-- The consecutive word windows built by the `while start < total` loop of
`_split_story`: repeatedly take `maxw` words.  For `maxw = 0` the source
loop would not terminate; every theorem about it assumes `1 ≤ maxw`. -/
def chunkWindows (maxw : Nat) (ws : List Str) : List (List Str) :=
  chunkWindowsF maxw ws.length ws

/-- `_split_story(text, max_words)` from `core/services/gemini_tts.py`. -/
def split_story (text : Str) (max_words : Nat) : List Str :=
  let words := pySplit text
  if words = [] then []
  else if words.length ≤ max_words then [pyStrip text]
  else (chunkWindows max_words words).map (fun w => pyStrip (joinSp w))

/-- `_split_chunk_half(chunk)` from `core/services/gemini_tts.py`. -/
def split_chunk_half (chunk : Str) : List Str :=
  let words := pySplit chunk
  if words.length < 2 then [chunk]
  else
    let mid := max (words.length / 2) 1
    let left := pyStrip (joinSp (words.take mid))
    let right := pyStrip (joinSp (words.drop mid))
    ([left, right]).filter (fun part => part ≠ [])

/-! ## Audio format detection and normalization (`gemini_tts.py` lines 31–91) -/

/-- ASCII bytes of a literal, for the container magic strings. -/
def ascii (s : String) : List Nat := s.toList.map Char.toNat

/-- `_has_wav_header(audio_bytes)`. -/
def has_wav_header (b : List Nat) : Bool :=
  decide (12 ≤ b.length) && decide (b.take 4 = ascii "RIFF")
    && decide ((b.drop 8).take 4 = ascii "WAVE")

/-- `_has_mp3_header(audio_bytes)`. -/
def has_mp3_header (b : List Nat) : Bool :=
  (decide (3 ≤ b.length) && decide (b.take 3 = ascii "ID3"))
  || (decide (2 ≤ b.length) && decide (b.getD 0 0 = 0xFF)
      && decide (Nat.land (b.getD 1 0) 0xE0 = 0xE0))

/-- `_has_ogg_header(audio_bytes)`. -/
def has_ogg_header (b : List Nat) : Bool :=
  decide (4 ≤ b.length) && decide (b.take 4 = ascii "OggS")

/-- `_has_flac_header(audio_bytes)`. -/
def has_flac_header (b : List Nat) : Bool :=
  decide (4 ≤ b.length) && decide (b.take 4 = ascii "fLaC")

/-- Little-endian 16-bit encoding, as produced by `struct.pack('<H', n)`
inside the `wave` module (defined for `n < 2^16`, reduced mod otherwise). -/
def le16 (n : Nat) : List Nat := [n % 256, n / 256 % 256]

/-- Little-endian 32-bit encoding (`struct.pack('<L', n)`). -/
def le32 (n : Nat) : List Nat :=
  [n % 256, n / 256 % 256, n / 65536 % 256, n / 16777216 % 256]

/-- The byte layout CPython's `wave` module writes for a PCM WAV file with
the given channel count, sample width, frame rate and raw data bytes:
RIFF/WAVE header, 16-byte `fmt ` chunk (format tag 1 = PCM), `data` chunk. -/
def buildWav (nch sw rate : Nat) (data : List Nat) : List Nat :=
  [82, 73, 70, 70] ++ le32 (36 + data.length)      -- "RIFF", riff chunk size
  ++ [87, 65, 86, 69]                              -- "WAVE"
  ++ [102, 109, 116, 32] ++ le32 16 ++ le16 1      -- "fmt ", size 16, PCM tag
  ++ le16 nch ++ le32 rate ++ le32 (rate * nch * sw)
  ++ le16 (nch * sw) ++ le16 (sw * 8)
  ++ [100, 97, 116, 97] ++ le32 data.length ++ data  -- "data"

/-- `_pcm_to_wav(pcm_bytes, sample_rate, channels)`: wrap raw PCM in a WAV
container with a fixed 16-bit (2-byte) sample width. -/
def pcm_to_wav (pcm_bytes : List Nat) (sample_rate channels : Nat) : List Nat :=
  buildWav channels 2 sample_rate pcm_bytes

/-- The byte at an offset (0 when out of range). -/
def byteAt (b : List Nat) (off : Nat) : Nat := (b.drop off).headD 0

/-- Read back a little-endian 16-bit header field at a byte offset. -/
def readLE16 (b : List Nat) (off : Nat) : Nat :=
  byteAt b off + 256 * byteAt b (off + 1)

/-- Read back a little-endian 32-bit header field at a byte offset. -/
def readLE32 (b : List Nat) (off : Nat) : Nat :=
  byteAt b off + 256 * byteAt b (off + 1) + 65536 * byteAt b (off + 2)
  + 16777216 * byteAt b (off + 3)

/-- The channel-count field of a canonical 44-byte-header WAV file. -/
def wavHeaderChannels (b : List Nat) : Nat := readLE16 b 22

/-- The sample-rate field of a canonical 44-byte-header WAV file. -/
def wavHeaderRate (b : List Nat) : Nat := readLE32 b 24

/-- The bits-per-sample field of a canonical 44-byte-header WAV file. -/
def wavHeaderBits (b : List Nat) : Nat := readLE16 b 34

/-- The audio frames of a canonical 44-byte-header WAV file. -/
def wavHeaderData (b : List Nat) : List Nat := b.drop 44

/-- Digit-run to integer, for the regex capture group of `_get_param`. -/
def digitsToNat (ds : Str) : Nat :=
  ds.foldl (fun a c => a * 10 + (c.toNat - 48)) 0

/-- Attempt to match the regex `name\s*=\s*(\d+)` at the start of `s`
(greedy whitespace, at least one digit). -/
def matchParamAt (name s : Str) : Option Nat :=
  if name.isPrefixOf s then
    match (s.drop name.length).dropWhile isWS with
    | '=' :: r2 =>
      let digits := (r2.dropWhile isWS).takeWhile Char.isDigit
      if digits = [] then none else some (digitsToNat digits)
    | _ => none
  else none

/-- Leftmost-match search for `matchParamAt`, i.e. `re.search`. -/
def searchParam (name : Str) : Str → Option Nat
  | [] => matchParamAt name []
  | c :: rest =>
    match matchParamAt name (c :: rest) with
    | some v => some v
    | none => searchParam name rest

/-- `_get_param(value, name)`: first `name = <digits>` occurrence in
`value` (the `int` conversion of a digit run never fails). -/
def get_param (value name : Str) : Option Nat := searchParam name value

/-- Python `x or default` for the `Option Nat` results of `_get_param`:
`None` and `0` are both falsy. -/
def pyOrNat (o : Option Nat) (d : Nat) : Nat :=
  match o with
  | none => d
  | some n => if n = 0 then d else n

/-- The PCM-MIME test of `_normalize_audio`:
`"l16" in mime or "linear16" in mime or "codec=pcm" in mime` on the
lowered MIME string. -/
def is_pcm_mime (mime : Str) : Bool :=
  strContains (strL "l16") mime || strContains (strL "linear16") mime
    || strContains (strL "codec=pcm") mime

/-- `_normalize_audio(audio_b64, mime_type)`, on decoded bytes.  Returns
the (possibly re-wrapped) audio bytes and the canonical MIME string. -/
def normalize_audio (audio_bytes : List Nat) (mime_type : Str) :
    List Nat × Str :=
  let mime := pyLower mime_type
  if is_pcm_mime mime then
    let sample_rate := pyOrNat (get_param mime (strL "rate")) 24000
    let channels := pyOrNat (get_param mime (strL "channels")) 1
    (pcm_to_wav audio_bytes sample_rate channels, strL "audio/wav")
  else if has_wav_header audio_bytes then (audio_bytes, strL "audio/wav")
  else if has_mp3_header audio_bytes then (audio_bytes, strL "audio/mpeg")
  else if has_ogg_header audio_bytes then (audio_bytes, strL "audio/ogg")
  else if has_flac_header audio_bytes then (audio_bytes, strL "audio/flac")
  else (audio_bytes, mime_type)

/-! ## WAV merging (`_merge_wav_b64`, lines 181–201)

`wave.open(..., "rb")` exposes a WAV part through its declared channel
count, sample width, frame rate and raw data bytes; the merge loop only
uses those, so a part is modelled as this parsed view. -/

/-- A WAV segment as read back by `wave.open(..., 'rb')`. -/
structure WavFile where
  nchannels : Nat
  sampwidth : Nat
  framerate : Nat
  dataBytes : List Nat
deriving DecidableEq

/-- Bytes per frame of a segment. -/
def wavFrameSize (w : WavFile) : Nat := w.nchannels * w.sampwidth

/-- `in_wav.getnframes()`: whole frames contained in the data chunk. -/
def wavNFrames (w : WavFile) : Nat := w.dataBytes.length / wavFrameSize w

/-- `in_wav.readframes(in_wav.getnframes())`: the data bytes truncated to
whole frames. -/
def readAllFrames (w : WavFile) : List Nat :=
  w.dataBytes.take (wavNFrames w * wavFrameSize w)

/-- `_merge_wav_b64` on the (already decoded, non-empty) parts: one part is
returned unchanged; otherwise the output takes channels/sampwidth/framerate
from the FIRST part and appends every part's frames in order, with no check
against the later parts' own headers. -/
def merge_wav : List WavFile → Except Str WavFile
  | [] => .error (strL "No audio chunks to merge.")
  | [w] => .ok w
  | w :: rest =>
    .ok { nchannels := w.nchannels, sampwidth := w.sampwidth,
          framerate := w.framerate,
          dataBytes := ((w :: rest).map readAllFrames).flatten }

/-! ## Provider-error classification (lines 204–213) -/

/-- `_is_token_limit_error(message)`. -/
def is_token_limit_error (message : Str) : Bool :=
  let msg := pyLower message
  strContains (strL "exceeds the maximum number of tokens allowed") msg
  || (strContains (strL "input token count") msg
      && strContains (strL "maximum number of tokens") msg)

/-- `_is_no_audio_error(message)`. -/
def is_no_audio_error (message : Str) : Bool :=
  strContains (strL "returned no audio data") (pyLower message)

/-! ## Retrying transport (`_post_with_retries`, lines 261–312)

The HTTP layer is an oracle mapping the attempt number to the outcome of
that `urlopen` call.  Backoff sleeps only delay execution and are elided. -/

/-- Outcome of one `urllib.request.urlopen` call. -/
inductive HttpOutcome where
  | success (body : Str)
  | httpError (code : Nat) (body : Str)
  | urlError (err : Str)
deriving DecidableEq

/-- `retry_codes = {408, 409, 425, 429, 500, 502, 503, 504}`. -/
def retryCodes : List Nat := [408, 409, 425, 429, 500, 502, 503, 504]

/-- Decimal rendering of a number, for embedded f-string fields. -/
def natToStr (n : Nat) : Str := (toString n).toList

/-- `f"Vertex native audio error {exc.code}: {body}"`. -/
def vertexHttpErrMsg (code : Nat) (body : Str) : Str :=
  strL "Vertex native audio error " ++ natToStr code ++ strL ": " ++ body

/-- `f"Vertex native audio network error: {exc}"`. -/
def vertexNetErrMsg (err : Str) : Str :=
  strL "Vertex native audio network error: " ++ err

/-- The `for attempt in range(retries + 1)` loop of `_post_with_retries`.
`remaining` counts the loop iterations still available (the loop invariant
is `remaining = retries + 1 - attempt`); exhausting it reaches the final
`raise` after the loop, exactly as in the source. -/
def postRetriesGo (oracle : Nat → HttpOutcome) (retries : Nat) :
    Nat → Nat → Except Str Str
  | 0, _ => .error (strL "Vertex native audio request failed after retries.")
  | remaining + 1, attempt =>
    match oracle attempt with
    | .success body => .ok body
    | .httpError code body =>
      if code ∈ retryCodes ∧ attempt < retries then
        postRetriesGo oracle retries remaining (attempt + 1)
      else .error (vertexHttpErrMsg code body)
    | .urlError err =>
      if retries ≤ attempt then .error (vertexNetErrMsg err)
      else postRetriesGo oracle retries remaining (attempt + 1)

/-- `_post_with_retries(...)` (`GEMINI_TTS_RETRIES` default 4). -/
def post_with_retries (oracle : Nat → HttpOutcome) (retries : Nat) :
    Except Str Str :=
  postRetriesGo oracle retries (retries + 1) 0

/-! ## TTS payload (`_build_tts_payload`, lines 226–258) -/

/-- The request payload fields the claims depend on: the system
instruction text, the user text (the chunk), and the voice name; the
remaining `generationConfig` fields are constants. -/
structure TtsPayload where
  systemText : Str
  userText : Str
  voiceName : Str
deriving DecidableEq

/-- The base system-instruction text of `_build_tts_payload`. -/
def ttsSystemBase (tone_style : Str) : Str :=
  strL "You are an African wise elder storyteller. Style: " ++ tone_style
  ++ strL " Speak naturally and clearly. Read the provided script exactly as written. Do not summarize, shorten, paraphrase, or add any words."

/-- The strict-audio-mode suffix appended on retries. -/
def strictAudioSuffix : Str :=
  strL " Output AUDIO only. Do not output text."

/-- `_build_tts_payload(chunk, tone_style, voice_name, strict_audio_mode)`. -/
def build_tts_payload (chunk tone_style voice_name : Str)
    (strict_audio_mode : Bool) : TtsPayload :=
  { systemText :=
      ttsSystemBase tone_style
      ++ (if strict_audio_mode then strictAudioSuffix else [])
    userText := chunk
    voiceName := voice_name }

/-! ## The chunk synthesis loop (`synthesize`, lines 352–425)

One provider round trip (`_post_with_retries` + `_parse_vertex_response`)
either yields decoded audio bytes with a MIME type or raises a
`GeminiTTSError` carrying a message.  The round trips are an oracle indexed
by a global call counter (so any sequence of provider behaviours is
representable) and receiving the payload that the loop built for it. -/

/-- Result of one provider round trip for one chunk attempt. -/
inductive ProviderResult where
  | audio (bytes : List Nat) (mime : Str)
  | error (msg : Str)
deriving DecidableEq

/-- The `for no_audio_attempt in range(no_audio_retries + 1)` loop of
`synthesize` for one chunk: build the payload (strict audio mode from the
second attempt on), call the provider, and retry only no-audio errors
while attempts remain.  `remaining` is the structural bound on the retries
still available; the loop entry `attemptLoop` instantiates it with
`no_audio_retries - attempt`, which the guard `attempt < no_audio_retries`
keeps in step with the attempt counter, so the `0`-with-guard-true branch
is never reached from the entry point.  Returns the outcome together with
the advanced call counter. -/
def attemptLoopGo (oracle : Nat → TtsPayload → ProviderResult)
    (tone_style voice_name chunk : Str) (no_audio_retries : Nat) :
    Nat → Nat → Nat → Except Str (List Nat × Str) × Nat
  | remaining, attempt, calls =>
    let payload := build_tts_payload chunk tone_style voice_name
      (decide (0 < attempt))
    match oracle calls payload with
    | .audio bytes mime => (.ok (bytes, mime), calls + 1)
    | .error msg =>
      if is_no_audio_error msg ∧ attempt < no_audio_retries then
        match remaining with
        | r + 1 =>
          attemptLoopGo oracle tone_style voice_name chunk no_audio_retries
            r (attempt + 1) (calls + 1)
        | 0 => (.error msg, calls + 1)
      else (.error msg, calls + 1)

/-- The inner chunk-attempt loop started at the given attempt number. -/
def attemptLoop (oracle : Nat → TtsPayload → ProviderResult)
    (tone_style voice_name chunk : Str) (no_audio_retries : Nat)
    (attempt calls : Nat) : Except Str (List Nat × Str) × Nat :=
  attemptLoopGo oracle tone_style voice_name chunk no_audio_retries
    (no_audio_retries - attempt) attempt calls

/-- `f"Expected WAV output after normalization, got {normalized_mime!r}."`
(the `repr` quoting of the MIME string is modelled with plain quotes). -/
def expectedWavMsg (mime : Str) : Str :=
  strL "Expected WAV output after normalization, got " ++ '\x27' :: mime
  ++ strL "\x27."

/-- What one iteration of the `while index < len(story_chunks)` loop does
with the chunk at the current index. -/
inductive StepOut where
  /-- Token-limit recovery: replace the chunk in place by these parts and
  loop again at the same index. -/
  | split (parts : List Str)
  /-- Success: append this normalized WAV part and advance the index. -/
  | advance (part : List Nat)
  /-- `raise chunk_error` (or the WAV-mime check failure). -/
  | fatal (msg : Str)
deriving DecidableEq

/-- The body of the `while` loop of `synthesize` for the chunk at the
current index, with the advanced call counter. -/
def synthStep (oracle : Nat → TtsPayload → ProviderResult)
    (tone_style voice_name chunk : Str)
    (min_chunk_words no_audio_retries calls : Nat) : StepOut × Nat :=
  match attemptLoop oracle tone_style voice_name chunk no_audio_retries
      0 calls with
  | (.error msg, calls') =>
    if is_token_limit_error msg ∧ min_chunk_words < wordCount chunk then
      let parts := split_chunk_half chunk
      if 1 < parts.length then (.split parts, calls')
      else (.fatal msg, calls')
    else (.fatal msg, calls')
  | (.ok (bytes, mime), calls') =>
    let norm := normalize_audio bytes mime
    if pyLower norm.2 = strL "audio/wav" then (.advance norm.1, calls')
    else (.fatal (expectedWavMsg norm.2), calls')

/-- Outcome of the whole chunk loop. -/
inductive LoopOut where
  /-- All chunks synthesized; the normalized WAV parts in order. -/
  | done (parts : List (List Nat))
  /-- A `GeminiTTSError` escaped the loop. -/
  | fatal (msg : Str)
  /-- Fuel ran out (never happens with enough fuel, see `C6`). -/
  | outOfFuel
deriving DecidableEq

/-- The `while index < len(story_chunks)` loop of `synthesize`.  `fuel`
bounds the number of iterations; token-limit splits splice the two halves
into the chunk list at the current index without advancing it. -/
def synthLoop (oracle : Nat → TtsPayload → ProviderResult)
    (tone_style voice_name : Str) (min_chunk_words no_audio_retries : Nat) :
    Nat → List Str → Nat → Nat → List (List Nat) → LoopOut
  | 0, _, _, _, _ => .outOfFuel
  | fuel + 1, chunks, index, calls, acc =>
    if _h : index < chunks.length then
      match synthStep oracle tone_style voice_name chunks[index]
          min_chunk_words no_audio_retries calls with
      | (.split parts, calls') =>
        synthLoop oracle tone_style voice_name min_chunk_words
          no_audio_retries fuel
          (chunks.take index ++ parts ++ chunks.drop (index + 1))
          index calls' acc
      | (.advance part, calls') =>
        synthLoop oracle tone_style voice_name min_chunk_words
          no_audio_retries fuel chunks (index + 1) calls' (acc ++ [part])
      | (.fatal msg, _) => .fatal msg
    else .done acc

/-- Termination measure for `synthLoop`: each pending chunk of `k` words
contributes `3^k`. -/
def loopMeasure (chunks : List Str) (index : Nat) : Nat :=
  ((chunks.drop index).map (fun c => 3 ^ wordCount c)).sum

/-! ## Provider orchestration (`core/api.py`, `_synthesize_audio`) -/

/-- A synthesis result as returned by a provider (`audio_data`,
`audio_format`). -/
structure TtsRes where
  audioData : Str
  audioFormat : Str
deriving DecidableEq

/-- Outcome of calling one provider: a return value or a raised exception
with its message. -/
inductive ProvOutcome (α : Type) where
  | ok (r : α)
  | exc (msg : Str)
deriving DecidableEq

/-- Python `" | ".join(errors)`. -/
def joinBar (errors : List Str) : Str :=
  joinSepBar errors
where
  /-- worker for `joinBar`. -/
  joinSepBar : List Str → Str
    | [] => []
    | [e] => e
    | e :: es => e ++ strL " | " ++ joinSepBar es

/-- Python `s or default` on strings (empty string is falsy). -/
def pyOrStr (s d : Str) : Str := if s = [] then d else s

/-- `_synthesize_audio(text, tone)` from `core/api.py`, abstracted over the
two provider outcomes.  The Google provider can also return a falsy result
(`None`), modelled as `.ok none`. -/
def synthesize_audio (provider : Str) (allow_gemini_fallback : Bool)
    (googleOutcome : ProvOutcome (Option TtsRes))
    (geminiOutcome : ProvOutcome TtsRes) : Except Str TtsRes :=
  if provider = strL "google" then
    match googleOutcome with
    | .ok (some r) => .ok r
    | .ok none => googleBranchFail [] allow_gemini_fallback geminiOutcome
    | .exc m =>
      googleBranchFail [strL "Google TTS: " ++ m] allow_gemini_fallback
        geminiOutcome
  else
    match geminiOutcome with
    | .ok r => .ok r
    | .exc m =>
      let errors := [strL "Gemini TTS: " ++ m]
      match googleOutcome with
      | .ok (some r) => .ok r
      | .ok none => .error (joinBar errors)
      | .exc m2 => .error (joinBar (errors ++ [strL "Google TTS: " ++ m2]))
where
  /-- The `if not allow_gemini_fallback: raise ...` tail of the
  `provider == 'google'` branch, and the Gemini fallback after it. -/
  googleBranchFail (errors : List Str) (allow : Bool)
      (geminiOutcome : ProvOutcome TtsRes) : Except Str TtsRes :=
    if ¬allow then
      .error (pyOrStr (joinBar errors) (strL "Google TTS did not return audio."))
    else
      match geminiOutcome with
      | .ok r => .ok r
      | .exc m => .error (joinBar (errors ++ [strL "Gemini TTS: " ++ m]))

/-! ## Lemmas about whitespace splitting -/

/-- A word as produced by `pySplit`: non-empty and whitespace-free. -/
def CleanWord (w : Str) : Prop := w ≠ [] ∧ ∀ c ∈ w, isWS c = false

theorem pySplitAux_clean (s : Str) : ∀ cur : Str,
    (∀ c ∈ cur, isWS c = false) → ∀ w ∈ pySplitAux cur s, CleanWord w := by
  induction s with
  | nil =>
    intro cur hcur w hw
    simp only [pySplitAux] at hw
    split at hw
    · simp at hw
    · rename_i hne
      simp only [List.mem_singleton] at hw
      subst hw
      refine ⟨by simpa using hne, ?_⟩
      intro c hc
      exact hcur c (List.mem_reverse.mp hc)
  | cons a t ih =>
    intro cur hcur w hw
    simp only [pySplitAux] at hw
    by_cases hws : isWS a
    · rw [if_pos hws] at hw
      by_cases hcurnil : cur = []
      · rw [if_pos hcurnil] at hw
        exact ih [] (by simp) w hw
      · rw [if_neg hcurnil] at hw
        rcases List.mem_cons.mp hw with h | h
        · subst h
          refine ⟨by simpa using hcurnil, ?_⟩
          intro c hc
          exact hcur c (List.mem_reverse.mp hc)
        · exact ih [] (by simp) w h
    · rw [if_neg hws] at hw
      refine ih (a :: cur) ?_ w hw
      intro c hc
      rcases List.mem_cons.mp hc with h | h
      · subst h; simpa using hws
      · exact hcur c h

theorem pySplit_clean (s : Str) : ∀ w ∈ pySplit s, CleanWord w :=
  pySplitAux_clean s [] (by simp)

theorem pySplitAux_word (w : Str) (hw : ∀ c ∈ w, isWS c = false) :
    ∀ (cur s : Str), pySplitAux cur (w ++ s) = pySplitAux (w.reverse ++ cur) s := by
  induction w with
  | nil => intro cur s; simp
  | cons a t ih =>
    intro cur s
    have ha : isWS a = false := hw a (by simp)
    simp only [List.cons_append, pySplitAux, ha, Bool.false_eq_true,
      if_false, List.append_eq]
    rw [ih (fun c hc => hw c (by simp [hc])) (a :: cur) s]
    simp

theorem pySplitAux_allWS (v : Str) (hv : ∀ c ∈ v, isWS c = true) :
    pySplitAux [] v = [] := by
  induction v with
  | nil => simp [pySplitAux]
  | cons a t ih =>
    have ha : isWS a = true := hv a (by simp)
    simp only [pySplitAux, ha, if_true, if_pos rfl]
    exact ih (fun c hc => hv c (by simp [hc]))

theorem pySplitAux_append_allWS (v : Str) (hv : ∀ c ∈ v, isWS c = true)
    (u : Str) : ∀ cur : Str, pySplitAux cur (u ++ v) = pySplitAux cur u := by
  induction u with
  | nil =>
    intro cur
    simp only [List.nil_append, pySplitAux]
    by_cases hc : cur = []
    · rw [if_pos hc]
      subst hc
      exact pySplitAux_allWS v hv
    · rw [if_neg hc]
      cases v with
      | nil => simp [pySplitAux, hc]
      | cons a t =>
        have ha : isWS a = true := hv a (by simp)
        simp only [pySplitAux, ha, if_true, if_neg hc]
        rw [pySplitAux_allWS t (fun c hct => hv c (by simp [hct]))]
  | cons a t ih =>
    intro cur
    simp only [List.cons_append, pySplitAux, List.append_eq]
    by_cases hws : isWS a
    · rw [if_pos hws, if_pos hws]
      by_cases hcn : cur = []
      · rw [if_pos hcn, if_pos hcn, ih]
      · rw [if_neg hcn, if_neg hcn, ih]
    · rw [if_neg hws, if_neg hws, ih]

/-- Splitting the space-join of clean words recovers exactly the words. -/
theorem pySplit_joinSp (ws : List Str) (h : ∀ w ∈ ws, CleanWord w) :
    pySplit (joinSp ws) = ws := by
  induction ws with
  | nil => simp [pySplit, joinSp, pySplitAux]
  | cons w rest ih =>
    obtain ⟨hne, hclean⟩ := h w (by simp)
    cases rest with
    | nil =>
      show pySplitAux [] (joinSp [w]) = [w]
      simp only [joinSp]
      rw [show w = w ++ [] by simp, pySplitAux_word w hclean [] []]
      simp only [pySplitAux, List.append_nil]
      rw [if_neg (by simpa using hne)]
      simp
    | cons w2 rest2 =>
      show pySplitAux [] (joinSp (w :: w2 :: rest2)) = w :: w2 :: rest2
      simp only [joinSp]
      rw [pySplitAux_word w hclean [] (' ' :: joinSp (w2 :: rest2))]
      simp only [pySplitAux, List.append_nil]
      rw [if_pos (by simp [isWS]), if_neg (by simpa using hne)]
      rw [show pySplitAux [] (joinSp (w2 :: rest2)) = pySplit (joinSp (w2 :: rest2)) from rfl]
      rw [ih (fun x hx => h x (by simp [hx]))]
      simp

theorem pySplit_dropWhileWS (s : Str) :
    pySplitAux [] (s.dropWhile isWS) = pySplitAux [] s := by
  induction s with
  | nil => simp
  | cons a t ih =>
    by_cases hws : isWS a
    · rw [List.dropWhile_cons_of_pos hws]
      rw [ih]
      simp [pySplitAux, hws]
    · rw [List.dropWhile_cons_of_neg hws]

/-- Stripping does not change the word sequence. -/
theorem pySplit_pyStrip (s : Str) : pySplit (pyStrip s) = pySplit s := by
  set t := s.dropWhile isWS with ht
  have hsplit : t = pyStrip s ++ (t.reverse.takeWhile isWS).reverse := by
    have h2 : (List.dropWhile isWS t.reverse).reverse
        ++ (List.takeWhile isWS t.reverse).reverse = t := by
      calc (List.dropWhile isWS t.reverse).reverse
            ++ (List.takeWhile isWS t.reverse).reverse
          = (List.takeWhile isWS t.reverse
              ++ List.dropWhile isWS t.reverse).reverse := by
            rw [List.reverse_append]
        _ = t.reverse.reverse := by
            rw [List.takeWhile_append_dropWhile]
        _ = t := List.reverse_reverse t
    exact h2.symm
  have hv : ∀ c ∈ (t.reverse.takeWhile isWS).reverse, isWS c = true := by
    intro c hc
    exact List.mem_takeWhile_imp (List.mem_reverse.mp hc)
  calc pySplit (pyStrip s)
      = pySplitAux [] (pyStrip s ++ (t.reverse.takeWhile isWS).reverse) := by
        rw [pySplitAux_append_allWS _ hv]
        rfl
    _ = pySplitAux [] t := by rw [← hsplit]
    _ = pySplit s := pySplit_dropWhileWS s

/-- The word sequence of a stripped space-join of clean words. -/
theorem pySplit_pyStrip_joinSp (ws : List Str) (h : ∀ w ∈ ws, CleanWord w) :
    pySplit (pyStrip (joinSp ws)) = ws := by
  rw [pySplit_pyStrip, pySplit_joinSp ws h]

/-- A chunk whose word sequence is non-empty is itself non-empty. -/
theorem ne_nil_of_pySplit_ne_nil {s : Str} (h : pySplit s ≠ []) : s ≠ [] := by
  intro hs
  subst hs
  exact h rfl

/-! ## Lemmas about the chunk windows -/

theorem chunkWindows_nil (maxw : Nat) : chunkWindows maxw [] = [] := rfl

/-- Any iteration bound of at least `ws.length` computes the same windows
(provided `maxw ≠ 0`, which makes every loop iteration consume words). -/
theorem chunkWindowsF_fuel (maxw : Nat) (hm : maxw ≠ 0) :
    ∀ (n : Nat) (ws : List Str) (fuel : Nat), ws.length ≤ n →
      ws.length ≤ fuel →
      chunkWindowsF maxw fuel ws = chunkWindowsF maxw ws.length ws := by
  intro n
  induction n with
  | zero =>
    intro ws fuel h _
    have hnil : ws = [] := List.eq_nil_of_length_eq_zero (Nat.le_zero.mp h)
    subst hnil
    cases fuel <;> rfl
  | succ n ih =>
    intro ws fuel h hf
    cases ws with
    | nil => cases fuel <;> rfl
    | cons w ws' =>
      cases fuel with
      | zero => simp at hf
      | succ f =>
        show (w :: ws').take maxw :: chunkWindowsF maxw f ((w :: ws').drop maxw)
            = (w :: ws').take maxw
              :: chunkWindowsF maxw ws'.length ((w :: ws').drop maxw)
        have hdn : ((w :: ws').drop maxw).length ≤ n := by
          simp only [List.length_drop, List.length_cons]
          simp only [List.length_cons] at h
          omega
        have hdf : ((w :: ws').drop maxw).length ≤ f := by
          simp only [List.length_drop, List.length_cons]
          simp only [List.length_cons] at hf
          omega
        have hdl : ((w :: ws').drop maxw).length ≤ ws'.length := by
          simp only [List.length_drop, List.length_cons]
          omega
        rw [ih _ f hdn hdf, ih _ ws'.length hdn hdl]

theorem chunkWindows_cons (maxw : Nat) (hm : maxw ≠ 0) (ws : List Str)
    (hws : ws ≠ []) :
    chunkWindows maxw ws = ws.take maxw :: chunkWindows maxw (ws.drop maxw) := by
  cases ws with
  | nil => exact absurd rfl hws
  | cons w ws' =>
    show (w :: ws').take maxw :: chunkWindowsF maxw ws'.length ((w :: ws').drop maxw)
        = (w :: ws').take maxw
          :: chunkWindowsF maxw ((w :: ws').drop maxw).length ((w :: ws').drop maxw)
    have hdl : ((w :: ws').drop maxw).length ≤ ws'.length := by
      simp only [List.length_drop, List.length_cons]
      omega
    rw [chunkWindowsF_fuel maxw hm ws'.length _ ws'.length hdl hdl]

theorem chunkWindows_flatten (maxw : Nat) (hm : maxw ≠ 0) (ws : List Str) :
    (chunkWindows maxw ws).flatten = ws := by
  have key : ∀ n (ws : List Str), ws.length ≤ n →
      (chunkWindows maxw ws).flatten = ws := by
    intro n
    induction n with
    | zero =>
      intro ws h
      have : ws = [] := List.eq_nil_of_length_eq_zero (Nat.le_zero.mp h)
      subst this
      simp [chunkWindows_nil]
    | succ n ih =>
      intro ws h
      by_cases hws : ws = []
      · subst hws; simp [chunkWindows_nil]
      · rw [chunkWindows_cons maxw hm ws hws]
        have hlt : (ws.drop maxw).length ≤ n := by
          simp only [List.length_drop]
          cases ws with
          | nil => exact absurd rfl hws
          | cons a l =>
            simp only [List.length_cons] at h ⊢
            omega
        rw [List.flatten_cons, ih (ws.drop maxw) hlt, List.take_append_drop]
  exact key ws.length ws le_rfl

theorem chunkWindows_mem (maxw : Nat) (hm : maxw ≠ 0) (ws : List Str) :
    ∀ w ∈ chunkWindows maxw ws, w ≠ [] ∧ ∀ x ∈ w, x ∈ ws := by
  have key : ∀ n (ws : List Str), ws.length ≤ n →
      ∀ w ∈ chunkWindows maxw ws, w ≠ [] ∧ ∀ x ∈ w, x ∈ ws := by
    intro n
    induction n with
    | zero =>
      intro ws h w hw
      have : ws = [] := List.eq_nil_of_length_eq_zero (Nat.le_zero.mp h)
      subst this
      rw [chunkWindows_nil] at hw
      simp at hw
    | succ n ih =>
      intro ws h w hw
      by_cases hws : ws = []
      · subst hws; rw [chunkWindows_nil] at hw; simp at hw
      · rw [chunkWindows_cons maxw hm ws hws] at hw
        rcases List.mem_cons.mp hw with hw | hw
        · subst hw
          constructor
          · cases ws with
            | nil => exact absurd rfl hws
            | cons a l =>
              cases maxw with
              | zero => exact absurd rfl hm
              | succ m => simp
          · intro x hx
            exact List.mem_of_mem_take hx
        · have hlt : (ws.drop maxw).length ≤ n := by
            simp only [List.length_drop]
            cases ws with
            | nil => exact absurd rfl hws
            | cons a l =>
              simp only [List.length_cons] at h ⊢
              omega
          obtain ⟨h1, h2⟩ := ih (ws.drop maxw) hlt w hw
          exact ⟨h1, fun x hx => List.mem_of_mem_drop (h2 x hx)⟩
  exact key ws.length ws le_rfl

theorem chunkWindows_length (maxw : Nat) (hm : maxw ≠ 0) (ws : List Str) :
    (chunkWindows maxw ws).length = (ws.length + maxw - 1) / maxw := by
  have key : ∀ n (ws : List Str), ws.length ≤ n →
      (chunkWindows maxw ws).length = (ws.length + maxw - 1) / maxw := by
    intro n
    induction n with
    | zero =>
      intro ws h
      have : ws = [] := List.eq_nil_of_length_eq_zero (Nat.le_zero.mp h)
      subst this
      rw [chunkWindows_nil]
      simp only [List.length_nil, Nat.zero_add]
      rw [Nat.div_eq_of_lt (by omega)]
    | succ n ih =>
      intro ws h
      by_cases hws : ws = []
      · subst hws
        rw [chunkWindows_nil]
        simp only [List.length_nil, Nat.zero_add]
        rw [Nat.div_eq_of_lt (by omega)]
      · rw [chunkWindows_cons maxw hm ws hws]
        have hpos : 1 ≤ ws.length := by
          cases ws with
          | nil => exact absurd rfl hws
          | cons a l => simp
        have hlt : (ws.drop maxw).length ≤ n := by
          simp only [List.length_drop]
          omega
        rw [List.length_cons, ih (ws.drop maxw) hlt]
        simp only [List.length_drop]
        rcases Nat.lt_or_ge (ws.length) maxw with hcase | hcase
        · rw [Nat.sub_eq_zero_of_le (Nat.le_of_lt hcase)]
          rw [Nat.div_eq_of_lt (by omega)]
          rw [Nat.div_eq_sub_div (by omega) (by omega)]
          rw [Nat.div_eq_of_lt (by omega)]
        · have h1 : ws.length - maxw + maxw - 1 = ws.length - 1 := by omega
          have h2 : ws.length + maxw - 1 = (ws.length - 1) + maxw := by omega
          rw [h1, h2, Nat.add_div_right _ (by omega)]
  exact key ws.length ws le_rfl

theorem chunkWindows_take_length (maxw : Nat) (hm : maxw ≠ 0) (ws : List Str) :
    ∀ w ∈ chunkWindows maxw ws, w.length ≤ maxw := by
  have key : ∀ n (ws : List Str), ws.length ≤ n →
      ∀ w ∈ chunkWindows maxw ws, w.length ≤ maxw := by
    intro n
    induction n with
    | zero =>
      intro ws h w hw
      have : ws = [] := List.eq_nil_of_length_eq_zero (Nat.le_zero.mp h)
      subst this
      rw [chunkWindows_nil] at hw
      simp at hw
    | succ n ih =>
      intro ws h w hw
      by_cases hws : ws = []
      · subst hws; rw [chunkWindows_nil] at hw; simp at hw
      · rw [chunkWindows_cons maxw hm ws hws] at hw
        rcases List.mem_cons.mp hw with hw | hw
        · subst hw
          simp [List.length_take]
        · have hlt : (ws.drop maxw).length ≤ n := by
            simp only [List.length_drop]
            cases ws with
            | nil => exact absurd rfl hws
            | cons a l =>
              simp only [List.length_cons] at h ⊢
              omega
          exact ih (ws.drop maxw) hlt w hw
  exact key ws.length ws le_rfl

/-- Every window except possibly the last has exactly `maxw` words. -/
theorem chunkWindows_dropLast_length (maxw : Nat) (hm : maxw ≠ 0)
    (ws : List Str) :
    ∀ w ∈ (chunkWindows maxw ws).dropLast, w.length = maxw := by
  have key : ∀ n (ws : List Str), ws.length ≤ n →
      ∀ w ∈ (chunkWindows maxw ws).dropLast, w.length = maxw := by
    intro n
    induction n with
    | zero =>
      intro ws h w hw
      have : ws = [] := List.eq_nil_of_length_eq_zero (Nat.le_zero.mp h)
      subst this
      rw [chunkWindows_nil] at hw
      simp at hw
    | succ n ih =>
      intro ws h w hw
      by_cases hws : ws = []
      · subst hws; rw [chunkWindows_nil] at hw; simp at hw
      · rw [chunkWindows_cons maxw hm ws hws] at hw
        by_cases hrest : ws.drop maxw = []
        · rw [hrest, chunkWindows_nil] at hw
          simp at hw
        · have hne : chunkWindows maxw (ws.drop maxw) ≠ [] := by
            rw [chunkWindows_cons maxw hm _ hrest]
            simp
          rw [List.dropLast_cons_of_ne_nil hne] at hw
          rcases List.mem_cons.mp hw with hw | hw
          · subst hw
            rw [List.length_take]
            have : maxw ≤ ws.length := by
              by_contra hcon
              push_neg at hcon
              exact hrest (List.drop_eq_nil_of_le (Nat.le_of_lt hcon))
            omega
          · have hlt : (ws.drop maxw).length ≤ n := by
              simp only [List.length_drop]
              cases ws with
              | nil => exact absurd rfl hws
              | cons a l =>
                simp only [List.length_cons] at h ⊢
                omega
            exact ih (ws.drop maxw) hlt w hw
  exact key ws.length ws le_rfl

/-! ## Characterization of the chunker and the half-split -/

/-- The chunks produced by `_split_story` carry exactly the consecutive
word windows of the input. -/
theorem split_story_map_pySplit (text : Str) (L : Nat) (hL : L ≠ 0) :
    (split_story text L).map pySplit = chunkWindows L (pySplit text) := by
  unfold split_story
  by_cases h0 : pySplit text = []
  · rw [if_pos h0, h0, chunkWindows_nil]
    simp
  · rw [if_neg h0]
    by_cases h1 : (pySplit text).length ≤ L
    · rw [if_pos h1]
      rw [chunkWindows_cons L hL _ h0]
      rw [List.drop_eq_nil_of_le h1, chunkWindows_nil]
      rw [List.take_of_length_le h1]
      simp [pySplit_pyStrip]
    · rw [if_neg h1]
      rw [List.map_map]
      have : ∀ w ∈ chunkWindows L (pySplit text),
          (pySplit ∘ fun w => pyStrip (joinSp w)) w = w := by
        intro w hw
        obtain ⟨_, hsub⟩ := chunkWindows_mem L hL (pySplit text) w hw
        exact pySplit_pyStrip_joinSp w (fun x hx => pySplit_clean text x (hsub x hx))
      calc (chunkWindows L (pySplit text)).map
            (pySplit ∘ fun w => pyStrip (joinSp w))
          = (chunkWindows L (pySplit text)).map id := List.map_congr_left this
        _ = chunkWindows L (pySplit text) := List.map_id _

/-- `_split_chunk_half` on a chunk of fewer than 2 words returns the chunk
unsplit. -/
theorem split_chunk_half_small (chunk : Str)
    (h : (pySplit chunk).length < 2) : split_chunk_half chunk = [chunk] := by
  unfold split_chunk_half
  rw [if_pos h]

/-- `_split_chunk_half` on a chunk of at least 2 words: two non-empty
halves cut at the floor word-count midpoint. -/
theorem split_chunk_half_parts (chunk : Str)
    (h2 : 2 ≤ (pySplit chunk).length) :
    ∃ left right, split_chunk_half chunk = [left, right]
      ∧ pySplit left = (pySplit chunk).take ((pySplit chunk).length / 2)
      ∧ pySplit right = (pySplit chunk).drop ((pySplit chunk).length / 2)
      ∧ left ≠ [] ∧ right ≠ [] := by
  set ws := pySplit chunk with hws
  have hmid1 : 1 ≤ ws.length / 2 := by
    have : 2 / 2 ≤ ws.length / 2 := Nat.div_le_div_right h2
    simpa using this
  have hmax : max (ws.length / 2) 1 = ws.length / 2 := Nat.max_eq_left hmid1
  have hmidlt : ws.length / 2 < ws.length := Nat.div_lt_self (by omega) (by omega)
  have htake : pySplit (pyStrip (joinSp (ws.take (ws.length / 2))))
      = ws.take (ws.length / 2) := by
    refine pySplit_pyStrip_joinSp _ ?_
    intro x hx
    exact pySplit_clean chunk x (hws ▸ List.mem_of_mem_take hx)
  have hdrop : pySplit (pyStrip (joinSp (ws.drop (ws.length / 2))))
      = ws.drop (ws.length / 2) := by
    refine pySplit_pyStrip_joinSp _ ?_
    intro x hx
    exact pySplit_clean chunk x (hws ▸ List.mem_of_mem_drop hx)
  have htake_ne : ws.take (ws.length / 2) ≠ [] := by
    have : (ws.take (ws.length / 2)).length = ws.length / 2 :=
      List.length_take_of_le (Nat.le_of_lt hmidlt)
    intro hcon
    rw [hcon] at this
    simp only [List.length_nil] at this
    omega
  have hdrop_ne : ws.drop (ws.length / 2) ≠ [] := by
    have : (ws.drop (ws.length / 2)).length = ws.length - ws.length / 2 := by
      simp
    intro hcon
    rw [hcon] at this
    simp only [List.length_nil] at this
    omega
  have hlne : pyStrip (joinSp (ws.take (ws.length / 2))) ≠ [] := by
    intro hcon
    rw [hcon] at htake
    exact htake_ne htake.symm
  have hrne : pyStrip (joinSp (ws.drop (ws.length / 2))) ≠ [] := by
    intro hcon
    rw [hcon] at hdrop
    exact hdrop_ne hdrop.symm
  refine ⟨pyStrip (joinSp (ws.take (ws.length / 2))),
    pyStrip (joinSp (ws.drop (ws.length / 2))), ?_, htake, hdrop, hlne, hrne⟩
  unfold split_chunk_half
  rw [if_neg (by rw [← hws]; omega)]
  rw [← hws, hmax]
  simp [List.filter, hlne, hrne]

/-- The two halves have `⌊k/2⌋` and `k - ⌊k/2⌋` words, summing to `k`. -/
theorem split_chunk_half_word_counts (chunk : Str)
    (h2 : 2 ≤ wordCount chunk) :
    ∃ left right, split_chunk_half chunk = [left, right]
      ∧ wordCount left = wordCount chunk / 2
      ∧ wordCount right = wordCount chunk - wordCount chunk / 2
      ∧ wordCount left + wordCount right = wordCount chunk
      ∧ 1 ≤ wordCount left ∧ 1 ≤ wordCount right
      ∧ left ≠ [] ∧ right ≠ [] := by
  have h2' : 2 ≤ (pySplit chunk).length := h2
  obtain ⟨left, right, heq, hl, hr, hlne, hrne⟩ :=
    split_chunk_half_parts chunk h2'
  have hlen : wordCount left = wordCount chunk / 2 := by
    show (pySplit left).length = (pySplit chunk).length / 2
    rw [hl, List.length_take_of_le
      (Nat.le_of_lt (Nat.div_lt_self (by omega) (by omega)))]
  have hrlen : wordCount right = wordCount chunk - wordCount chunk / 2 := by
    show (pySplit right).length
      = (pySplit chunk).length - (pySplit chunk).length / 2
    rw [hr, List.length_drop]
  refine ⟨left, right, heq, hlen, hrlen, ?_, ?_, ?_, hlne, hrne⟩
  · rw [hlen, hrlen]
    have := Nat.div_le_self (wordCount chunk) 2
    omega
  · rw [hlen]
    have : 2 / 2 ≤ wordCount chunk / 2 := Nat.div_le_div_right h2
    simpa using this
  · rw [hrlen]
    have := Nat.div_lt_self (show 0 < wordCount chunk by omega)
      (show 1 < 2 by omega)
    omega

/-! ## Lemmas about the synthesis loop -/

theorem synthLoop_done (oracle : Nat → TtsPayload → ProviderResult)
    (ts vn : Str) (minW noR fuel : Nat) (chunks : List Str)
    (index calls : Nat) (acc : List (List Nat))
    (h : chunks.length ≤ index) :
    synthLoop oracle ts vn minW noR (fuel + 1) chunks index calls acc
      = .done acc := by
  unfold synthLoop
  rw [dif_neg (by omega)]

theorem synthLoop_split (oracle : Nat → TtsPayload → ProviderResult)
    (ts vn : Str) (minW noR fuel : Nat) (chunks : List Str)
    (index calls : Nat) (acc : List (List Nat)) (parts : List Str)
    (calls2 : Nat) (h : index < chunks.length)
    (hstep : synthStep oracle ts vn chunks[index] minW noR calls
      = (.split parts, calls2)) :
    synthLoop oracle ts vn minW noR (fuel + 1) chunks index calls acc
      = synthLoop oracle ts vn minW noR fuel
          (chunks.take index ++ parts ++ chunks.drop (index + 1))
          index calls2 acc := by
  conv_lhs => unfold synthLoop
  rw [dif_pos h, hstep]

theorem synthLoop_advance (oracle : Nat → TtsPayload → ProviderResult)
    (ts vn : Str) (minW noR fuel : Nat) (chunks : List Str)
    (index calls : Nat) (acc : List (List Nat)) (part : List Nat)
    (calls2 : Nat) (h : index < chunks.length)
    (hstep : synthStep oracle ts vn chunks[index] minW noR calls
      = (.advance part, calls2)) :
    synthLoop oracle ts vn minW noR (fuel + 1) chunks index calls acc
      = synthLoop oracle ts vn minW noR fuel chunks (index + 1) calls2
          (acc ++ [part]) := by
  conv_lhs => unfold synthLoop
  rw [dif_pos h, hstep]

theorem synthLoop_fatal (oracle : Nat → TtsPayload → ProviderResult)
    (ts vn : Str) (minW noR fuel : Nat) (chunks : List Str)
    (index calls : Nat) (acc : List (List Nat)) (msg : Str)
    (calls2 : Nat) (h : index < chunks.length)
    (hstep : synthStep oracle ts vn chunks[index] minW noR calls
      = (.fatal msg, calls2)) :
    synthLoop oracle ts vn minW noR (fuel + 1) chunks index calls acc
      = .fatal msg := by
  unfold synthLoop
  rw [dif_pos h, hstep]

/-- Step characterization under a token-limit failure: recovery happens
exactly when the word count clears the floor AND the half-split really
produced two parts. -/
theorem synthStep_token_limit (oracle : Nat → TtsPayload → ProviderResult)
    (ts vn chunk : Str) (minW noR calls calls2 : Nat) (msg : Str)
    (hfail : attemptLoop oracle ts vn chunk noR 0 calls
      = (.error msg, calls2))
    (htok : is_token_limit_error msg = true) :
    (minW < wordCount chunk ∧ 1 < (split_chunk_half chunk).length →
      synthStep oracle ts vn chunk minW noR calls
        = (.split (split_chunk_half chunk), calls2))
    ∧ (¬ (minW < wordCount chunk) →
      synthStep oracle ts vn chunk minW noR calls = (.fatal msg, calls2))
    ∧ (¬ (1 < (split_chunk_half chunk).length) →
      synthStep oracle ts vn chunk minW noR calls = (.fatal msg, calls2)) := by
  refine ⟨?_, ?_, ?_⟩
  · rintro ⟨h1, h2⟩
    simp only [synthStep, hfail]
    rw [if_pos ⟨htok, h1⟩, if_pos h2]
  · intro h1
    simp only [synthStep, hfail]
    rw [if_neg (by tauto)]
  · intro h2
    simp only [synthStep, hfail]
    by_cases h1 : minW < wordCount chunk
    · rw [if_pos ⟨htok, h1⟩, if_neg h2]
    · rw [if_neg (by tauto)]

/-- Inversion: a `.split` step can only come from the token-limit branch
with a genuine two-part split. -/
theorem synthStep_split_inv (oracle : Nat → TtsPayload → ProviderResult)
    (ts vn chunk : Str) (minW noR calls calls2 : Nat) (parts : List Str)
    (hstep : synthStep oracle ts vn chunk minW noR calls
      = (.split parts, calls2)) :
    parts = split_chunk_half chunk ∧ 1 < parts.length := by
  unfold synthStep at hstep
  split at hstep
  · split at hstep
    · dsimp only at hstep
      split at hstep
      · rename_i hlen
        simp only [Prod.mk.injEq, StepOut.split.injEq] at hstep
        exact ⟨hstep.1.symm, hstep.1 ▸ hlen⟩
      · simp at hstep
    · simp at hstep
  · dsimp only at hstep
    split at hstep <;> simp at hstep

/-- The termination measure drops below any bound that covered it when a
chunk is split in place. -/
theorem loopMeasure_drop_cons (chunks : List Str) (index : Nat)
    (h : index < chunks.length) :
    loopMeasure chunks index
      = 3 ^ wordCount chunks[index] + loopMeasure chunks (index + 1) := by
  unfold loopMeasure
  rw [List.drop_eq_getElem_cons h, List.map_cons, List.sum_cons]

theorem loopMeasure_splice (chunks : List Str) (index : Nat) (parts : List Str)
    (h : index < chunks.length) :
    loopMeasure (chunks.take index ++ parts ++ chunks.drop (index + 1)) index
      = (parts.map (fun c => 3 ^ wordCount c)).sum
        + loopMeasure chunks (index + 1) := by
  unfold loopMeasure
  have htake : (chunks.take index).length = index :=
    List.length_take_of_le (Nat.le_of_lt h)
  rw [List.append_assoc, List.drop_left' htake]
  simp

theorem three_pow_add_lt (k1 k2 : Nat) (h1 : 1 ≤ k1) (h2 : 1 ≤ k2) :
    3 ^ k1 + 3 ^ k2 < 3 ^ (k1 + k2) := by
  have e1 : 3 ^ k1 ≤ 3 ^ (k1 + k2 - 1) :=
    Nat.pow_le_pow_right (by omega) (by omega)
  have e2 : 3 ^ k2 ≤ 3 ^ (k1 + k2 - 1) :=
    Nat.pow_le_pow_right (by omega) (by omega)
  have e3 : 3 ^ (k1 + k2) = 3 ^ (k1 + k2 - 1) * 3 := by
    rw [← Nat.pow_succ]
    congr 1
    omega
  have e4 : 1 ≤ 3 ^ (k1 + k2 - 1) := Nat.one_le_pow _ _ (by omega)
  omega

/-- One-step unfolding of `attemptLoopGo`. -/
theorem attemptLoopGo_eq (oracle : Nat → TtsPayload → ProviderResult)
    (ts vn chunk : Str) (noR remaining attempt calls : Nat) :
    attemptLoopGo oracle ts vn chunk noR remaining attempt calls
      = match oracle calls
          (build_tts_payload chunk ts vn (decide (0 < attempt))) with
        | .audio bytes mime => (.ok (bytes, mime), calls + 1)
        | .error msg =>
          if is_no_audio_error msg ∧ attempt < noR then
            match remaining with
            | r + 1 =>
              attemptLoopGo oracle ts vn chunk noR r (attempt + 1) (calls + 1)
            | 0 => (.error msg, calls + 1)
          else (.error msg, calls + 1) := by
  conv_lhs => unfold attemptLoopGo

/-- If the provider answers every attempt for this chunk with a no-audio
error, the inner attempt loop walks through all the attempts and surfaces
the last error. -/
theorem attemptLoopGo_no_audio (oracle : Nat → TtsPayload → ProviderResult)
    (ts vn chunk : Str) (noR : Nat) (m : Nat → Str)
    (hmsg : ∀ i, i ≤ noR → is_no_audio_error (m i) = true) :
    ∀ (remaining attempt calls : Nat), remaining = noR - attempt →
      attempt ≤ noR →
      (∀ i p, attempt + i ≤ noR →
        oracle (calls + i) p = .error (m (attempt + i))) →
      attemptLoopGo oracle ts vn chunk noR remaining attempt calls
        = (.error (m noR), calls + (noR - attempt) + 1) := by
  intro remaining
  induction remaining with
  | zero =>
    intro attempt calls hrem hle horacle
    have hae : attempt = noR := by omega
    have hor : oracle calls
        (build_tts_payload chunk ts vn (decide (0 < attempt)))
        = .error (m attempt) := by
      have h0 := horacle 0
        (build_tts_payload chunk ts vn (decide (0 < attempt))) (by omega)
      simpa using h0
    rw [attemptLoopGo_eq, hor]
    dsimp only
    rw [if_neg (fun hc => absurd hc.2 (by omega))]
    rw [hae]
    simp [Nat.sub_self]
  | succ r ih =>
    intro attempt calls hrem hle horacle
    have hlt : attempt < noR := by omega
    have hor : oracle calls
        (build_tts_payload chunk ts vn (decide (0 < attempt)))
        = .error (m attempt) := by
      have h0 := horacle 0
        (build_tts_payload chunk ts vn (decide (0 < attempt))) (by omega)
      simpa using h0
    rw [attemptLoopGo_eq, hor]
    dsimp only
    rw [if_pos ⟨hmsg attempt (Nat.le_of_lt hlt), hlt⟩]
    have hshift : ∀ i p, (attempt + 1) + i ≤ noR →
        oracle ((calls + 1) + i) p = .error (m ((attempt + 1) + i)) := by
      intro i p hi
      have h2 := horacle (i + 1) p (by omega)
      rw [show calls + 1 + i = calls + (i + 1) by omega,
        show attempt + 1 + i = attempt + (i + 1) by omega]
      exact h2
    rw [ih (attempt + 1) (calls + 1) (by omega) (by omega) hshift]
    simp only [Prod.mk.injEq, true_and]
    omega

/-! ## WAV header facts for `_pcm_to_wav` output -/

set_option maxHeartbeats 1600000 in
theorem wavHeaderRate_pcm (audio : List Nat) (rate ch : Nat)
    (h : rate < 4294967296) :
    wavHeaderRate (pcm_to_wav audio rate ch) = rate := by
  have e : wavHeaderRate (pcm_to_wav audio rate ch)
      = rate % 256 + 256 * (rate / 256 % 256) + 65536 * (rate / 65536 % 256)
        + 16777216 * (rate / 16777216 % 256) := rfl
  rw [e]
  omega

theorem wavHeaderChannels_pcm (audio : List Nat) (rate ch : Nat)
    (h : ch < 65536) :
    wavHeaderChannels (pcm_to_wav audio rate ch) = ch := by
  have e : wavHeaderChannels (pcm_to_wav audio rate ch)
      = ch % 256 + 256 * (ch / 256 % 256) := rfl
  rw [e]
  omega

set_option maxHeartbeats 1600000 in
theorem wavHeaderBits_pcm (audio : List Nat) (rate ch : Nat) :
    wavHeaderBits (pcm_to_wav audio rate ch) = 16 := rfl

theorem wavHeaderData_pcm (audio : List Nat) (rate ch : Nat) :
    wavHeaderData (pcm_to_wav audio rate ch) = audio := rfl

theorem has_wav_header_pcm (audio : List Nat) (rate ch : Nat) :
    has_wav_header (pcm_to_wav audio rate ch) = true := by
  unfold has_wav_header
  have h1 : (pcm_to_wav audio rate ch).take 4 = ascii "RIFF" := rfl
  have h2 : ((pcm_to_wav audio rate ch).drop 8).take 4 = ascii "WAVE" := rfl
  have h3 : 12 ≤ (pcm_to_wav audio rate ch).length := by
    show 12 ≤ (buildWav ch 2 rate audio).length
    simp [buildWav, ascii, le16, le32]
  simp [h1, h2, h3]

/-! ## Claim theorems -/

/-- C1 (counterexample): merging two WAV segments whose headers declare
different sample rates does NOT raise a merge error: `_merge_wav_b64`
appends the second segment's frames under the first segment's parameters
and succeeds. -/
theorem C1_counterexample :
    (WavFile.mk 1 2 16000 [4, 5]).framerate
      ≠ (WavFile.mk 1 2 24000 [0, 1, 2, 3]).framerate
    ∧ merge_wav [WavFile.mk 1 2 24000 [0, 1, 2, 3], WavFile.mk 1 2 16000 [4, 5]]
      = .ok (WavFile.mk 1 2 24000 [0, 1, 2, 3, 4, 5]) := by decide

/-- C1 (amended): for every merge of two or more WAV segments the output's
channel count, sample width and frame rate are taken from the FIRST
segment, and every segment's frames are appended verbatim in order — a
later segment with different declared parameters is coerced to the first
segment's format rather than causing an error. -/
theorem C1_merge_uses_first_params (w : WavFile) (rest : List WavFile)
    (hrest : rest ≠ []) :
    merge_wav (w :: rest)
      = .ok (WavFile.mk w.nchannels w.sampwidth w.framerate
          (((w :: rest).map readAllFrames).flatten)) := by
  cases rest with
  | nil => exact absurd rfl hrest
  | cons b bs => rfl

/-- C1 (witness): the amended merge theorem at a concrete two-segment
input with mismatched headers. -/
theorem C1_witness :
    merge_wav [WavFile.mk 1 2 24000 [0, 1], WavFile.mk 2 2 8000 [2, 3]]
      = .ok (WavFile.mk 1 2 24000
          (([WavFile.mk 1 2 24000 [0, 1],
             WavFile.mk 2 2 8000 [2, 3]].map readAllFrames).flatten)) :=
  C1_merge_uses_first_params (WavFile.mk 1 2 24000 [0, 1])
    [WavFile.mk 2 2 8000 [2, 3]] (by decide)

/-- C2 (counterexample): 501 is in the 5xx server-error family and the
retry budget is fresh (attempt 0 of 4), yet the transport fails
immediately with the body attached instead of retrying — while 503 with
the same oracle is retried and succeeds. -/
theorem C2_counterexample :
    (500 ≤ 501 ∧ 501 < 600 ∧ 501 ∉ retryCodes)
    ∧ post_with_retries
        (fun n => if n = 0 then .httpError 501 (strL "body")
          else .success (strL "ok")) 4
      = .error (vertexHttpErrMsg 501 (strL "body"))
    ∧ post_with_retries
        (fun n => if n = 0 then .httpError 503 (strL "body")
          else .success (strL "ok")) 4
      = .ok (strL "ok") := by decide

/-- C2 (amended): an HTTP error status is retried exactly when it lies in
the fixed set `{408, 409, 425, 429, 500, 502, 503, 504}` and the retry
budget is not exhausted; any other error status — including 501 and
505-599 — and any retryable status on the final attempt fail immediately
with the response body attached to the raised error. -/
theorem C2_retry_policy (oracle : Nat → HttpOutcome)
    (retries remaining attempt code : Nat) (body : Str)
    (hor : oracle attempt = .httpError code body) :
    (code ∈ retryCodes ↔ (code = 408 ∨ code = 409 ∨ code = 425
      ∨ code = 429 ∨ code = 500 ∨ code = 502 ∨ code = 503 ∨ code = 504))
    ∧ (code ∈ retryCodes → attempt < retries →
        postRetriesGo oracle retries (remaining + 1) attempt
          = postRetriesGo oracle retries remaining (attempt + 1))
    ∧ (code ∉ retryCodes ∨ retries ≤ attempt →
        postRetriesGo oracle retries (remaining + 1) attempt
          = .error (vertexHttpErrMsg code body)
        ∧ body <:+ vertexHttpErrMsg code body) := by
  refine ⟨by simp [retryCodes], ?_, ?_⟩
  · intro hmem hlt
    simp only [postRetriesGo, hor]
    rw [if_pos ⟨hmem, hlt⟩]
  · intro hno
    have hneg : ¬ (code ∈ retryCodes ∧ attempt < retries) := by
      rcases hno with hno | hno
      · exact fun hc => hno hc.1
      · exact fun hc => absurd hc.2 (by omega)
    refine ⟨?_, ?_⟩
    · simp only [postRetriesGo, hor]
      rw [if_neg hneg]
    · exact ⟨strL "Vertex native audio error " ++ natToStr code ++ strL ": ",
        by simp [vertexHttpErrMsg, List.append_assoc]⟩

/-- C2 (witness): the amended retry policy at a concrete 503 response with
budget remaining. -/
theorem C2_witness :
    ((503 : Nat) ∈ retryCodes ↔ ((503 : Nat) = 408 ∨ (503 : Nat) = 409
      ∨ (503 : Nat) = 425 ∨ (503 : Nat) = 429 ∨ (503 : Nat) = 500
      ∨ (503 : Nat) = 502 ∨ (503 : Nat) = 503 ∨ (503 : Nat) = 504))
    ∧ ((503 : Nat) ∈ retryCodes → 0 < 4 →
        postRetriesGo (fun _ => .httpError 503 (strL "b")) 4 (4 + 1) 0
          = postRetriesGo (fun _ => .httpError 503 (strL "b")) 4 4 (0 + 1))
    ∧ ((503 : Nat) ∉ retryCodes ∨ 4 ≤ 0 →
        postRetriesGo (fun _ => .httpError 503 (strL "b")) 4 (4 + 1) 0
          = .error (vertexHttpErrMsg 503 (strL "b"))
        ∧ strL "b" <:+ vertexHttpErrMsg 503 (strL "b")) :=
  C2_retry_policy (fun _ => .httpError 503 (strL "b")) 4 4 0 503
    (strL "b") rfl

/-- C4 (counterexample): empty narration text has word count 0, which is
at most the limit 120, yet `_split_story` returns no chunk at all rather
than one chunk equal to the trimmed input. -/
theorem C4_counterexample :
    (pySplit (strL "")).length ≤ 120
    ∧ split_story (strL "") 120 ≠ [pyStrip (strL "")] := by decide

/-- C4 (amended): for text with at least one word and word limit `L ≥ 1`:
if the word count `N` is at most `L` the chunker returns exactly one chunk
equal to the trimmed input; otherwise it returns `⌈N/L⌉` chunks carrying
exactly the consecutive word windows of the text, every chunk except
possibly the last having exactly `L` words and the last at most `L`. -/
theorem C4_chunker_shape (text : Str) (L : Nat) (hL : 1 ≤ L)
    (hN : 1 ≤ (pySplit text).length) :
    ((pySplit text).length ≤ L → split_story text L = [pyStrip text])
    ∧ (L < (pySplit text).length →
        (split_story text L).length = ((pySplit text).length + L - 1) / L
        ∧ (split_story text L).map pySplit = chunkWindows L (pySplit text)
        ∧ ((split_story text L).map pySplit).flatten = pySplit text
        ∧ (∀ w ∈ ((split_story text L).map pySplit).dropLast, w.length = L)
        ∧ (∀ w ∈ (split_story text L).map pySplit, w.length ≤ L)) := by
  have hne : pySplit text ≠ [] := by
    intro hcon
    rw [hcon] at hN
    simp at hN
  constructor
  · intro hfit
    simp only [split_story]
    rw [if_neg hne, if_pos hfit]
  · intro hbig
    refine ⟨?_, split_story_map_pySplit text L (by omega), ?_, ?_, ?_⟩
    · simp only [split_story]
      rw [if_neg hne, if_neg (by omega)]
      rw [List.length_map, chunkWindows_length L (by omega)]
    · rw [split_story_map_pySplit text L (by omega),
        chunkWindows_flatten L (by omega)]
    · rw [split_story_map_pySplit text L (by omega)]
      exact chunkWindows_dropLast_length L (by omega) (pySplit text)
    · rw [split_story_map_pySplit text L (by omega)]
      exact chunkWindows_take_length L (by omega) (pySplit text)

/-- C4 (witness): the amended chunker theorem at text of 3 words with
limit 2. -/
theorem C4_witness :
    (((pySplit (strL "a b c")).length ≤ 2 →
        split_story (strL "a b c") 2 = [pyStrip (strL "a b c")])
    ∧ (2 < (pySplit (strL "a b c")).length →
        (split_story (strL "a b c") 2).length
          = ((pySplit (strL "a b c")).length + 2 - 1) / 2
        ∧ (split_story (strL "a b c") 2).map pySplit
          = chunkWindows 2 (pySplit (strL "a b c"))
        ∧ ((split_story (strL "a b c") 2).map pySplit).flatten
          = pySplit (strL "a b c")
        ∧ (∀ w ∈ ((split_story (strL "a b c") 2).map pySplit).dropLast,
            w.length = 2)
        ∧ (∀ w ∈ (split_story (strL "a b c") 2).map pySplit,
            w.length ≤ 2))) :=
  C4_chunker_shape (strL "a b c") 2 (by decide) (by decide)

/-- C5: a chunk of `k ≥ 2` words half-splits into exactly two non-empty
chunks cut at the floor midpoint whose word counts sum to `k`; a chunk of
fewer than 2 words is returned unsplit, and in the synthesis loop a
token-limit error on such a chunk is fatal. -/
theorem C5_half_split (chunk : Str) :
    (2 ≤ wordCount chunk →
      ∃ left right, split_chunk_half chunk = [left, right]
        ∧ left ≠ [] ∧ right ≠ []
        ∧ wordCount left = wordCount chunk / 2
        ∧ wordCount right = wordCount chunk - wordCount chunk / 2
        ∧ wordCount left + wordCount right = wordCount chunk)
    ∧ (wordCount chunk < 2 → split_chunk_half chunk = [chunk])
    ∧ (∀ (oracle : Nat → TtsPayload → ProviderResult) (ts vn : Str)
        (minW noR calls calls2 : Nat) (msg : Str),
        wordCount chunk < 2 →
        attemptLoop oracle ts vn chunk noR 0 calls = (.error msg, calls2) →
        is_token_limit_error msg = true →
        synthStep oracle ts vn chunk minW noR calls
          = (.fatal msg, calls2)) := by
  refine ⟨?_, ?_, ?_⟩
  · intro h2
    obtain ⟨l, r, heq, hlen, hrlen, hsum, _, _, hlne, hrne⟩ :=
      split_chunk_half_word_counts chunk h2
    exact ⟨l, r, heq, hlne, hrne, hlen, hrlen, hsum⟩
  · intro h
    exact split_chunk_half_small chunk h
  · intro oracle ts vn minW noR calls calls2 msg hsmall hfail htok
    obtain ⟨_, _, hfatal⟩ := synthStep_token_limit oracle ts vn chunk minW
      noR calls calls2 msg hfail htok
    apply hfatal
    rw [split_chunk_half_small chunk hsmall]
    simp

/-- C5 (witness): the half-split shape at a concrete 3-word chunk. -/
theorem C5_witness :
    ∃ left right, split_chunk_half (strL "a b c") = [left, right]
      ∧ left ≠ [] ∧ right ≠ []
      ∧ wordCount left = wordCount (strL "a b c") / 2
      ∧ wordCount right
        = wordCount (strL "a b c") - wordCount (strL "a b c") / 2
      ∧ wordCount left + wordCount right = wordCount (strL "a b c") :=
  (C5_half_split (strL "a b c")).1 (by decide)

/-- C8 (counterexample): the MIME `audio/l16;rate=0` indicates raw PCM and
its `rate=` parameter parses to 0 (present, not absent), yet normalization
builds the container with 24000 Hz — the parsed value is replaced because
it is falsy, not only when absent. -/
theorem C8_counterexample :
    is_pcm_mime (pyLower (strL "audio/l16;rate=0")) = true
    ∧ get_param (pyLower (strL "audio/l16;rate=0")) (strL "rate") = some 0
    ∧ normalize_audio [1, 2] (strL "audio/l16;rate=0")
        = (pcm_to_wav [1, 2] 24000 1, strL "audio/wav")
    ∧ wavHeaderRate (pcm_to_wav [1, 2] 24000 1) = 24000
    ∧ (24000 : Nat) ≠ 0 := by decide

/-- C8 (amended): for every PCM-MIME byte string, normalization wraps the
bytes in a WAV container built from the `rate=`/`channels=` MIME
parameters, except that an absent OR zero-valued parameter falls back to
24000 Hz / 1 channel; the container is a valid WAV whose header carries
that rate and channel count with 16 bits per sample, whose data section is
exactly the input bytes, and the returned MIME is `audio/wav`. -/
theorem C8_pcm_normalization (audio : List Nat) (mime : Str)
    (rate ch : Nat)
    (hpcm : is_pcm_mime (pyLower mime) = true)
    (hrate : rate = pyOrNat (get_param (pyLower mime) (strL "rate")) 24000)
    (hch : ch = pyOrNat (get_param (pyLower mime) (strL "channels")) 1)
    (hr32 : rate < 4294967296) (hc16 : ch < 65536) :
    normalize_audio audio mime = (pcm_to_wav audio rate ch, strL "audio/wav")
    ∧ wavHeaderRate (pcm_to_wav audio rate ch) = rate
    ∧ wavHeaderChannels (pcm_to_wav audio rate ch) = ch
    ∧ wavHeaderBits (pcm_to_wav audio rate ch) = 16
    ∧ has_wav_header (pcm_to_wav audio rate ch) = true
    ∧ wavHeaderData (pcm_to_wav audio rate ch) = audio := by
  refine ⟨?_, wavHeaderRate_pcm audio rate ch hr32,
    wavHeaderChannels_pcm audio rate ch hc16,
    wavHeaderBits_pcm audio rate ch,
    has_wav_header_pcm audio rate ch,
    wavHeaderData_pcm audio rate ch⟩
  simp only [normalize_audio]
  rw [if_pos hpcm, hrate, hch]

/-- C8 (witness): the amended normalization theorem at the claim's own
instance `audio/l16;rate=16000;channels=1`. -/
theorem C8_witness :
    normalize_audio [7, 8] (strL "audio/l16;rate=16000;channels=1")
      = (pcm_to_wav [7, 8] 16000 1, strL "audio/wav")
    ∧ wavHeaderRate (pcm_to_wav [7, 8] 16000 1) = 16000
    ∧ wavHeaderChannels (pcm_to_wav [7, 8] 16000 1) = 1
    ∧ wavHeaderBits (pcm_to_wav [7, 8] 16000 1) = 16
    ∧ has_wav_header (pcm_to_wav [7, 8] 16000 1) = true
    ∧ wavHeaderData (pcm_to_wav [7, 8] 16000 1) = [7, 8] :=
  C8_pcm_normalization [7, 8] (strL "audio/l16;rate=16000;channels=1")
    16000 1 (by decide) (by decide) (by decide) (by decide) (by decide)

/-- C3: a token-limit failure on the chunk at the current index is
recovered if and only if the chunk's word count strictly exceeds
`min_chunk_words` (any positive floor, default 28): recovery replaces the
chunk in place by its two halves and the loop continues at the same index
(the first half), while a word count at or below the floor makes the
token-limit error fatal for the whole request. -/
theorem C3_token_limit_recovery (oracle : Nat → TtsPayload → ProviderResult)
    (ts vn : Str) (minW noR : Nat) (chunks : List Str)
    (index fuel calls calls2 : Nat) (acc : List (List Nat)) (msg : Str)
    (hmin : 1 ≤ minW) (hidx : index < chunks.length)
    (hfail : attemptLoop oracle ts vn chunks[index] noR 0 calls
      = (.error msg, calls2))
    (htok : is_token_limit_error msg = true) :
    (minW < wordCount chunks[index] ↔
      synthStep oracle ts vn chunks[index] minW noR calls
        = (.split (split_chunk_half chunks[index]), calls2))
    ∧ (minW < wordCount chunks[index] →
        synthLoop oracle ts vn minW noR (fuel + 1) chunks index calls acc
          = synthLoop oracle ts vn minW noR fuel
              (chunks.take index ++ split_chunk_half chunks[index]
                ++ chunks.drop (index + 1)) index calls2 acc)
    ∧ (wordCount chunks[index] ≤ minW →
        synthLoop oracle ts vn minW noR (fuel + 1) chunks index calls acc
          = .fatal msg) := by
  obtain ⟨hsplit, hfatal, _⟩ := synthStep_token_limit oracle ts vn
    chunks[index] minW noR calls calls2 msg hfail htok
  have hiff : minW < wordCount chunks[index] ↔
      synthStep oracle ts vn chunks[index] minW noR calls
        = (.split (split_chunk_half chunks[index]), calls2) := by
    constructor
    · intro h
      have hwc : 2 ≤ wordCount chunks[index] := by omega
      obtain ⟨l, r, heq, _, _, _, _, _, _, _⟩ :=
        split_chunk_half_word_counts _ hwc
      exact hsplit ⟨h, by rw [heq]; simp⟩
    · intro h
      by_contra hcon
      push_neg at hcon
      have hfat := hfatal (by omega)
      rw [hfat] at h
      simp at h
  refine ⟨hiff, ?_, ?_⟩
  · intro h
    exact synthLoop_split oracle ts vn minW noR fuel chunks index calls acc
      _ calls2 hidx (hiff.mp h)
  · intro h
    exact synthLoop_fatal oracle ts vn minW noR fuel chunks index calls acc
      msg calls2 hidx (hfatal (by omega))

/-- C3 (witness): the recovery criterion at a concrete 2-word chunk with
floor 1 and a provider that always reports a token-limit error. -/
theorem C3_witness :
    (1 < wordCount ([strL "a b"])[0] ↔
      synthStep (fun _ _ => .error
          (strL "exceeds the maximum number of tokens allowed"))
        (strL "t") (strL "v") ([strL "a b"])[0] 1 0 0
        = (.split (split_chunk_half ([strL "a b"])[0]), 1))
    ∧ (1 < wordCount ([strL "a b"])[0] →
        synthLoop (fun _ _ => .error
            (strL "exceeds the maximum number of tokens allowed"))
          (strL "t") (strL "v") 1 0 (5 + 1) [strL "a b"] 0 0 []
          = synthLoop (fun _ _ => .error
              (strL "exceeds the maximum number of tokens allowed"))
            (strL "t") (strL "v") 1 0 5
            (([strL "a b"]).take 0 ++ split_chunk_half ([strL "a b"])[0]
              ++ ([strL "a b"]).drop (0 + 1)) 0 1 [])
    ∧ (wordCount ([strL "a b"])[0] ≤ 1 →
        synthLoop (fun _ _ => .error
            (strL "exceeds the maximum number of tokens allowed"))
          (strL "t") (strL "v") 1 0 (5 + 1) [strL "a b"] 0 0 []
          = .fatal (strL "exceeds the maximum number of tokens allowed")) :=
  C3_token_limit_recovery
    (fun _ _ => .error (strL "exceeds the maximum number of tokens allowed"))
    (strL "t") (strL "v") 1 0 [strL "a b"] 0 5 0 1 [] _
    (by decide) (by decide) (by decide) (by decide)

/-- C6: the chunk synthesis loop terminates for every input and every
provider behaviour: with any fuel exceeding the measure
`Σ 3^(word-count)` over the pending chunks, the loop never runs out of
fuel — each split strictly decreases the measure because it replaces a
chunk by two non-empty strictly shorter chunks, and each success removes a
chunk. -/
theorem C6_loop_terminates (oracle : Nat → TtsPayload → ProviderResult)
    (ts vn : Str) (minW noR : Nat) (fuel : Nat) :
    ∀ (chunks : List Str) (index calls : Nat) (acc : List (List Nat)),
      loopMeasure chunks index < fuel →
      synthLoop oracle ts vn minW noR fuel chunks index calls acc
        ≠ .outOfFuel := by
  induction fuel with
  | zero =>
    intro chunks index calls acc h
    exact absurd h (Nat.not_lt_zero _)
  | succ fuel ih =>
    intro chunks index calls acc h
    by_cases hidx : index < chunks.length
    · rcases hstep : synthStep oracle ts vn chunks[index] minW noR calls
        with ⟨out, calls2⟩
      cases out with
      | split parts =>
        rw [synthLoop_split oracle ts vn minW noR fuel chunks index calls
          acc parts calls2 hidx hstep]
        apply ih
        obtain ⟨hparts, hlen⟩ := synthStep_split_inv oracle ts vn
          chunks[index] minW noR calls calls2 parts hstep
        have hwc : 2 ≤ wordCount chunks[index] := by
          by_contra hcon
          push_neg at hcon
          rw [hparts, split_chunk_half_small _ hcon] at hlen
          simp at hlen
        obtain ⟨l, r, heq, _, _, hsum, hl1, hr1, _, _⟩ :=
          split_chunk_half_word_counts _ hwc
        rw [loopMeasure_splice chunks index parts hidx, hparts, heq]
        have hdrop := loopMeasure_drop_cons chunks index hidx
        have hpow := three_pow_add_lt (wordCount l) (wordCount r) hl1 hr1
        rw [hsum] at hpow
        simp only [List.map_cons, List.map_nil, List.sum_cons, List.sum_nil]
        omega
      | advance part =>
        rw [synthLoop_advance oracle ts vn minW noR fuel chunks index calls
          acc part calls2 hidx hstep]
        apply ih
        have hdrop := loopMeasure_drop_cons chunks index hidx
        have hone : 1 ≤ 3 ^ wordCount chunks[index] :=
          Nat.one_le_pow _ _ (by omega)
        omega
      | fatal msg =>
        rw [synthLoop_fatal oracle ts vn minW noR fuel chunks index calls
          acc msg calls2 hidx hstep]
        exact fun hc => LoopOut.noConfusion hc
    · rw [synthLoop_done oracle ts vn minW noR fuel chunks index calls acc
        (by omega)]
      exact fun hc => LoopOut.noConfusion hc

/-- C6 (witness): termination at a concrete empty chunk list with fuel 1. -/
theorem C6_witness :
    synthLoop (fun _ _ => .error (strL "x")) (strL "t") (strL "v") 28 2
      1 [] 0 0 [] ≠ .outOfFuel :=
  C6_loop_terminates (fun _ _ => .error (strL "x")) (strL "t") (strL "v")
    28 2 1 [] 0 0 [] (by decide)

/-- C7: when the provider reports a no-audio error on every attempt for a
chunk, the inner loop performs exactly `no_audio_retries + 1` provider
calls (retries in strict audio mode, whose system instructions append the
explicit audio-only directive), surfaces the final no-audio failure
itself — recognisable as such by the no-audio predicate — and, unless the
message also matches the token-limit predicate, the failure is fatal for
the step. -/
theorem C7_no_audio_policy (oracle : Nat → TtsPayload → ProviderResult)
    (ts vn chunk : Str) (minW noR calls : Nat) (m : Nat → Str)
    (horacle : ∀ i p, i ≤ noR → oracle (calls + i) p = .error (m i))
    (hmsg : ∀ i, i ≤ noR → is_no_audio_error (m i) = true) :
    attemptLoop oracle ts vn chunk noR 0 calls
      = (.error (m noR), calls + noR + 1)
    ∧ is_no_audio_error (m noR) = true
    ∧ (∀ tone : Str, (build_tts_payload chunk tone vn true).systemText
        = (build_tts_payload chunk tone vn false).systemText
          ++ strictAudioSuffix)
    ∧ (is_token_limit_error (m noR) = false →
        synthStep oracle ts vn chunk minW noR calls
          = (.fatal (m noR), calls + noR + 1)) := by
  have hloop : attemptLoop oracle ts vn chunk noR 0 calls
      = (.error (m noR), calls + noR + 1) := by
    have hgo := attemptLoopGo_no_audio oracle ts vn chunk noR m hmsg
      (noR - 0) 0 calls (by omega) (by omega)
      (by intro i p hi; simpa using horacle i p (by omega))
    unfold attemptLoop
    simpa using hgo
  refine ⟨hloop, hmsg noR (Nat.le_refl _), ?_, ?_⟩
  · intro tone
    simp [build_tts_payload]
  · intro htokf
    unfold synthStep
    rw [hloop]
    dsimp only
    rw [if_neg (by simp [htokf])]

/-- C7 (witness): three calls and a surfaced no-audio failure at a
concrete chunk with `no_audio_retries = 2` and a provider that always
returns the no-audio error. -/
theorem C7_witness :
    attemptLoop
      (fun _ _ => .error
        (strL "Vertex native audio returned no audio data. Response: x"))
      (strL "t") (strL "v") (strL "hi") 2 0 0
      = (.error
          (strL "Vertex native audio returned no audio data. Response: x"),
        0 + 2 + 1)
    ∧ is_no_audio_error
        (strL "Vertex native audio returned no audio data. Response: x")
      = true
    ∧ (∀ tone : Str,
        (build_tts_payload (strL "hi") tone (strL "v") true).systemText
        = (build_tts_payload (strL "hi") tone (strL "v") false).systemText
          ++ strictAudioSuffix)
    ∧ (is_token_limit_error
        (strL "Vertex native audio returned no audio data. Response: x")
          = false →
        synthStep
          (fun _ _ => .error
            (strL "Vertex native audio returned no audio data. Response: x"))
          (strL "t") (strL "v") (strL "hi") 28 2 0
          = (.fatal
              (strL "Vertex native audio returned no audio data. Response: x"),
            0 + 2 + 1)) :=
  C7_no_audio_policy
    (fun _ _ => .error
      (strL "Vertex native audio returned no audio data. Response: x"))
    (strL "t") (strL "v") (strL "hi") 28 2 0
    (fun _ => strL "Vertex native audio returned no audio data. Response: x")
    (fun _ _ _ => rfl) (fun _ _ => rfl)

/-- C9: with the primary provider configured as the managed cloud TTS
provider (`google`) and the fallback flag disabled, a primary failure is
surfaced immediately as one error joining the collected provider error
messages, and the result never depends on the secondary provider's
outcome — the secondary is not attempted. -/
theorem C9_google_no_fallback (provider : Str)
    (hprov : provider = strL "google") (m : Str)
    (g g1 g2 : ProvOutcome TtsRes) (gOut : ProvOutcome (Option TtsRes)) :
    synthesize_audio provider false (.exc m) g
      = .error (joinBar [strL "Google TTS: " ++ m])
    ∧ synthesize_audio provider false gOut g1
      = synthesize_audio provider false gOut g2 := by
  subst hprov
  constructor
  · rfl
  · cases gOut with
    | ok o =>
      cases o with
      | some r => rfl
      | none => rfl
    | exc m2 => rfl

/-- C9 (witness): the no-fallback behaviour at a concrete failing Google
outcome, with two different Gemini outcomes left unconsulted. -/
theorem C9_witness :
    synthesize_audio (strL "google") false (.exc (strL "boom"))
        (.exc (strL "gem"))
      = .error (joinBar [strL "Google TTS: " ++ strL "boom"])
    ∧ synthesize_audio (strL "google") false (.exc (strL "boom"))
        (.ok (TtsRes.mk (strL "a") (strL "audio/wav")))
      = synthesize_audio (strL "google") false (.exc (strL "boom"))
        (.exc (strL "other")) :=
  C9_google_no_fallback (strL "google") rfl (strL "boom")
    (.exc (strL "gem")) (.ok (TtsRes.mk (strL "a") (strL "audio/wav")))
    (.exc (strL "other")) (.exc (strL "boom"))

/-- C10: for every text and word limit of at least 1, the chunks returned
by `_split_story` concatenate (in order) to exactly the word sequence of
the text, and `_split_chunk_half` likewise preserves the word sequence of
the chunk it splits. -/
theorem C10_word_preservation (text : Str) (L : Nat) (hL : 1 ≤ L)
    (chunk : Str) :
    ((split_story text L).map pySplit).flatten = pySplit text
    ∧ ((split_chunk_half chunk).map pySplit).flatten = pySplit chunk := by
  constructor
  · rw [split_story_map_pySplit text L (by omega),
      chunkWindows_flatten L (by omega)]
  · by_cases h : 2 ≤ (pySplit chunk).length
    · obtain ⟨l, r, heq, hl, hr, _, _⟩ := split_chunk_half_parts chunk h
      rw [heq]
      simp only [List.map_cons, List.map_nil, List.flatten_cons,
        List.flatten_nil, List.append_nil, hl, hr]
      exact List.take_append_drop _ _
    · push_neg at h
      rw [split_chunk_half_small chunk h]
      simp

/-- C10 (witness): word preservation at a concrete text and chunk. -/
theorem C10_witness :
    ((split_story (strL "a b c") 1).map pySplit).flatten
      = pySplit (strL "a b c")
    ∧ ((split_chunk_half (strL "x y")).map pySplit).flatten
      = pySplit (strL "x y") :=
  C10_word_preservation (strL "a b c") 1 (by decide) (strL "x y")

end GroitTTS
